import Mathlib

/-!
# Verification of the web-rag-engine ingestion and query pipeline

Shallow embedding of the repository's source files:
* `src/worker/app/ingest.py`  — text cleanup, chunking, knowledge-store writes
* `src/worker/app/tasks.py`   — the two Celery worker tasks
* `src/api/app/main.py`       — the `/ingest-url`, `/ingest-file` endpoints
* `src/api/app/query.py`      — the RAG query pipeline

Strings are modelled as `List Char`, or as Lean `String` where no
character-level processing occurs.  External collaborators (the network,
PyPDF2/python-docx extraction, the Chroma vector store, the SQLAlchemy job
table defined in the absent `app/database.py`, the Groq completion calls)
are modelled as explicit oracle inputs or, where the spec pins their
contract down, as definitions marked `Modelled from the spec`.
-/

namespace RagSpec

/-! ## Python string primitives

The cleanup pass in `fetch_and_clean_text` / `fetch_and_clean_file` uses
`str.splitlines`, `str.strip` and `str.split("  ")`.  They are embedded
character-exactly below. -/

/-- Python's whitespace class (`str.isspace` / what `str.strip()` removes),
restricted to the ASCII whitespace characters plus the Unicode
line/paragraph separators that `str.splitlines` also breaks on. -/
def isPySpace (c : Char) : Bool :=
  decide (c = ' ' ∨ c = '\t' ∨ c = '\n' ∨ c = '\r' ∨ c = '\x0b' ∨ c = '\x0c' ∨
    c = '\x1c' ∨ c = '\x1d' ∨ c = '\x1e' ∨ c = '\x1f' ∨ c = '\x85' ∨
    c = ' ' ∨ c = ' ' ∨ c = ' ')

/-- The line-boundary characters of Python's `str.splitlines`
(`\r\n` is additionally consumed as a single boundary). -/
def isLineBoundary (c : Char) : Bool :=
  decide (c = '\n' ∨ c = '\r' ∨ c = '\x0b' ∨ c = '\x0c' ∨
    c = '\x1c' ∨ c = '\x1d' ∨ c = '\x1e' ∨ c = '\x85' ∨ c = ' ' ∨ c = ' ')

/-- Drop the trailing characters satisfying `p` (helper for `str.strip`). -/
def dropEndWhile (p : Char → Bool) (l : List Char) : List Char :=
  (l.reverse.dropWhile p).reverse

/-- Python `str.strip()`: remove leading and trailing whitespace. -/
def pyStrip (l : List Char) : List Char :=
  dropEndWhile isPySpace (l.dropWhile isPySpace)

/-- Python `str.splitlines()`: split on line-boundary characters, treating
`"\r\n"` as a single boundary; a trailing boundary does not produce an
extra empty line (`"a\n".splitlines() == ["a"]`, `"".splitlines() == []`). -/
def pySplitlines : List Char → List (List Char)
  | [] => []
  | [c] => if isLineBoundary c then [[]] else [[c]]
  | c :: d :: rest =>
    if c = '\r' ∧ d = '\n' then [] :: pySplitlines rest
    else if isLineBoundary c then [] :: pySplitlines (d :: rest)
    else
      match pySplitlines (d :: rest) with
      | [] => [[c]]
      | h :: t => (c :: h) :: t

/-- Python `str.split("  ")`: split on each non-overlapping occurrence of
two consecutive spaces, scanning left to right (`"".split("  ") == [""]`). -/
def pySplitDoubleSpace : List Char → List (List Char)
  | [] => [[]]
  | [c] => [[c]]
  | c :: d :: rest =>
    if c = ' ' ∧ d = ' ' then [] :: pySplitDoubleSpace rest
    else
      match pySplitDoubleSpace (d :: rest) with
      | [] => [[c]]
      | h :: t => (c :: h) :: t

/-- Whether the two-space separator occurs anywhere in the list. -/
def hasDoubleSpace : List Char → Bool
  | c :: d :: rest => (decide (c = ' ' ∧ d = ' ')) || hasDoubleSpace (d :: rest)
  | _ => false

/-- Python `"\n".join(...)`. -/
def joinLines : List (List Char) → List Char
  | [] => []
  | [l] => l
  | l :: ls => l ++ '\n' :: joinLines ls

/-- The whitespace-normalization pass shared verbatim by
`fetch_and_clean_text` (ingest.py lines 51-54) and `fetch_and_clean_file`
(ingest.py lines 127-130):

    lines = (line.strip() for line in text.splitlines())
    chunks = (phrase.strip() for line in lines for phrase in line.split("  "))
    cleaned_text = '\n'.join(chunk for chunk in chunks if chunk)
-/
def cleanFragments (text : List Char) : List (List Char) :=
  ((((pySplitlines text).map pyStrip).map
      (fun line => (pySplitDoubleSpace line).map pyStrip)).flatten).filter
    (fun c => ¬ c.isEmpty)

def cleanWhitespace (text : List Char) : List Char :=
  joinLines (cleanFragments text)

/-! ## Chunker

`chunk_text` (ingest.py lines 66-76) delegates to langchain's
`RecursiveCharacterTextSplitter(chunk_size=1000, chunk_overlap=200,
length_function=len)`.  The library ships with the repository's pinned
dependency set; its algorithm is embedded here with the configuration the
source uses: default separators `["\n\n", "\n", " ", ""]`,
`keep_separator=False`, `is_separator_regex=False` (so `re.escape` makes
every separator a literal string) and `strip_whitespace=True`. -/

/-- `sep.beginsWithIn l`: the separator is a literal prefix of `l`. -/
def beginsWith : List Char → List Char → Bool
  | [], _ => true
  | _ :: _, [] => false
  | c :: s, d :: t => decide (c = d) && beginsWith s t

/-- `re.search(re.escape(sep), text)`: the separator occurs somewhere in
`text`. -/
def occursIn (sep : List Char) : List Char → Bool
  | [] => beginsWith sep []
  | c :: t => beginsWith sep (c :: t) || occursIn sep t

/-- `re.split(re.escape(sep), text)` for a non-empty literal separator:
split at each leftmost non-overlapping occurrence. -/
def splitOnSep (sep : List Char) : List Char → List (List Char)
  | [] => [[]]
  | c :: cs =>
    if h : sep ≠ [] ∧ beginsWith sep (c :: cs) then
      [] :: splitOnSep sep (List.drop sep.length (c :: cs))
    else
      match splitOnSep sep cs with
      | [] => [[c]]
      | x :: t => (c :: x) :: t
termination_by l => l.length
decreasing_by
  · simp only [List.length_drop, List.length_cons]
    cases sep with
    | nil => exact absurd rfl h.1
    | cons a s => simp only [List.length_cons]; omega
  · simp

/-- The separator-selection loop at the top of
`RecursiveCharacterTextSplitter._split_text`: take the first separator
that is empty or occurs in the text, remembering the remaining separators
for recursion; the fallback default is the last separator. -/
def chooseSepGo (text : List Char) (deflt : List Char) :
    List (List Char) → List Char × List (List Char)
  | [] => (deflt, [])
  | s :: rest =>
    if s = [] then ([], [])
    else if occursIn s text then (s, rest)
    else chooseSepGo text deflt rest

def chooseSep (text : List Char) (seps : List (List Char)) :
    List Char × List (List Char) :=
  chooseSepGo text (seps.getLastD []) seps

/-- `_split_text_with_regex(text, separator, keep_separator=False)`:
`re.split` (or `list(text)` for the empty separator), dropping empty
pieces. -/
def splitTextWithSep (text sep : List Char) : List (List Char) :=
  (if sep = [] then text.map (fun c => [c]) else splitOnSep sep text).filter
    (fun s => ¬ s.isEmpty)

/-- Python `separator.join(docs)`. -/
def joinWithSep (sep : List Char) : List (List Char) → List Char
  | [] => []
  | [d] => d
  | d :: ds => d ++ sep ++ joinWithSep sep ds

/-- `_join_docs(docs, separator)` with `strip_whitespace=True`: join, strip,
and drop the result when it strips to nothing. -/
def joinDocs (docs : List (List Char)) (sep : List Char) : Option (List Char) :=
  let text := pyStrip (joinWithSep sep docs)
  if text.isEmpty then none else some text

/-- The length of `joinWithSep sep docs` before any stripping: what
`_merge_splits`' running `total` tracks for the documents it holds. -/
def listWeight (sl : Nat) : List (List Char) → Nat
  | [] => 0
  | [d] => d.length
  | d :: ds => d.length + sl + listWeight sl ds

/-- The overlap-eviction `while` loop inside `_merge_splits`: pop documents
from the front of `current_doc` (adjusting `total`) while the overlap
budget or the size budget is exceeded.  The Python loop only runs with a
non-empty `current_doc` (its `total` mirrors the documents it holds), so
recursing on the document list is exact. -/
def popOverlap (chunkSize chunkOverlap sepLen dLen : Nat) :
    Nat → List (List Char) → Nat × List (List Char)
  | total, [] => (total, [])
  | total, x :: xs =>
    if total > chunkOverlap ∨
        (total + dLen + (if (x :: xs).length > 0 then sepLen else 0) > chunkSize ∧
          total > 0) then
      popOverlap chunkSize chunkOverlap sepLen dLen
        (total - (x.length + (if xs.length ≥ 1 then sepLen else 0))) xs
    else (total, x :: xs)

/-- The main loop of `_merge_splits`: greedily accumulate splits into
`current` while the running `total` stays within `chunk_size`, flushing a
joined document and evicting overlap when it would not. -/
def mergeSplitsGo (cs co : Nat) (sep : List Char) :
    List (List Char) → List (List Char) → List (List Char) → Nat →
    List (List Char) × List (List Char) × Nat
  | [], docs, current, total => (docs, current, total)
  | d :: ds, docs, current, total =>
    let dl := d.length
    if total + dl + (if current.length > 0 then sep.length else 0) > cs then
      if current.length > 0 then
        let docs1 := match joinDocs current sep with
          | some t => docs ++ [t]
          | none => docs
        let p := popOverlap cs co sep.length dl total current
        mergeSplitsGo cs co sep ds docs1 (p.2 ++ [d])
          (p.1 + dl + (if p.2.length > 0 then sep.length else 0))
      else
        mergeSplitsGo cs co sep ds docs [d] (total + dl)
    else
      mergeSplitsGo cs co sep ds docs (current ++ [d])
        (total + dl + (if current.length > 0 then sep.length else 0))

/-- `_merge_splits(splits, separator)`. -/
def mergeSplits (cs co : Nat) (splits : List (List Char)) (sep : List Char) :
    List (List Char) :=
  let r := mergeSplitsGo cs co sep splits [] [] 0
  match joinDocs r.2.1 sep with
  | some t => r.1 ++ [t]
  | none => r.1

/-- The split-classification loop of `_split_text`: splits shorter than
`chunk_size` are accumulated as good splits; an over-long split flushes the
accumulated good splits through `_merge_splits` and is either appended
as-is (no separators left) or split recursively. -/
def splitTextGo (cs co : Nat) (sep : List Char) (newSeps : List (List Char))
    (recurse : List Char → List (List Char)) :
    List (List Char) → List (List Char) → List (List Char) → List (List Char)
  | [], finalChunks, goodSplits =>
    finalChunks ++
      (if goodSplits.isEmpty then [] else mergeSplits cs co goodSplits sep)
  | s :: ss, finalChunks, goodSplits =>
    if s.length < cs then
      splitTextGo cs co sep newSeps recurse ss finalChunks (goodSplits ++ [s])
    else
      let fc1 := finalChunks ++
        (if goodSplits.isEmpty then [] else mergeSplits cs co goodSplits sep)
      let fc2 := if newSeps.isEmpty then fc1 ++ [s] else fc1 ++ recurse s
      splitTextGo cs co sep newSeps recurse ss fc2 []

/-- `RecursiveCharacterTextSplitter._split_text(text, separators)`.  The
fuel bounds the recursion depth; each recursive call passes a strict
suffix of the current separator list, so `separators.length + 1` units of
fuel make the zero-fuel branch unreachable. -/
def splitTextFuel (cs co : Nat) : Nat → List (List Char) → List Char →
    List (List Char)
  | 0, _, text => [text]
  | fuel + 1, seps, text =>
    let p := chooseSep text seps
    let splits := splitTextWithSep text p.1
    splitTextGo cs co p.1 p.2 (splitTextFuel cs co fuel p.2) splits [] []

/-- The library's default separator list `["\n\n", "\n", " ", ""]`. -/
def defaultSeparators : List (List Char) := [['\n', '\n'], ['\n'], [' '], []]

/-- `chunk_text` (ingest.py lines 66-76): the splitter with
`chunk_size=1000`, `chunk_overlap=200`, `length_function=len`. -/
def chunk_text (text : List Char) : List (List Char) :=
  splitTextFuel 1000 200 (defaultSeparators.length + 1) defaultSeparators text

/-! ## Knowledge store (Chroma collection) -/

/-- Chunk metadata as written by the two store functions: `ingest.py` line
90 attaches `{"source_url": url}`, line 141 attaches
`{"source_file": filename}`. -/
structure ChunkMeta where
  source_url : Option String
  source_file : Option String
deriving DecidableEq, Repr

/-- A document held by the collection (its embedding vector is produced
inside the store and is irrelevant to the claims). -/
structure StoredChunk where
  text : String
  meta : ChunkMeta
deriving DecidableEq, Repr

/-- Modelled from the spec: the Chroma collection lives in the external
`chromadb` server (`ingest.py` lines 19-32), not in this repository's
sources.  Per the spec's adapter contract (§4.4, §3 Chunk), documents are
stored keyed by id and `add` upserts: a duplicate id overwrites the
existing entry rather than creating a second one. -/
abbrev Collection : Type := List (String × StoredChunk)

def emptyCollection : Collection := []

def collectionUpsert (col : Collection) (id : String) (c : StoredChunk) :
    Collection :=
  if col.any (fun p => p.1 = id) then
    col.map (fun p => if p.1 = id then (id, c) else p)
  else col ++ [(id, c)]

def collectionAdd (col : Collection) (entries : List (String × StoredChunk)) :
    Collection :=
  entries.foldl (fun acc e => collectionUpsert acc e.1 e.2) col

def collectionIds (col : Collection) : List String := col.map (fun p => p.1)

/-- The deterministic chunk ids `[f"{key}_{i}" for i, _ in enumerate(chunks)]`
computed by both store functions. -/
def chunkIds (key : String) (chunks : List String) : List String :=
  chunks.enum.map (fun p => key ++ "_" ++ toString p.1)

/-- `store_chunks_in_db(url, chunks)` (ingest.py lines 79-98): skip when
there are no chunks, otherwise add every chunk under id `f"{url}_{i}"`
with metadata `{"source_url": url}`. -/
def store_chunks_in_db (url : String) (chunks : List String)
    (col : Collection) : Collection :=
  if chunks.isEmpty then col
  else
    collectionAdd col
      (chunks.enum.map (fun p =>
        (url ++ "_" ++ toString p.1, ⟨p.2, ⟨some url, none⟩⟩)))

/-- `store_file_chunks_in_db(filename, chunks)` (ingest.py lines 133-147):
ids `f"{filename}_{i}"`, metadata `{"source_file": filename}`. -/
def store_file_chunks_in_db (filename : String) (chunks : List String)
    (col : Collection) : Collection :=
  if chunks.isEmpty then col
  else
    collectionAdd col
      (chunks.enum.map (fun p =>
        (filename ++ "_" ++ toString p.1, ⟨p.2, ⟨none, some filename⟩⟩)))

/-! ## Job store and worker tasks -/

/-- Modelled from the spec: `app/database.py` (the SQLAlchemy
`IngestionJob` model and `SessionLocal`) is imported by `tasks.py` and
`main.py` but is not among the provided sources.  Per the spec (§3, §6
Job Store schema), a job row has an immutable unique `id`, a `url` column
holding the source key, and a string `status`. -/
structure IngestionJob where
  id : String
  url : String
  status : String
deriving DecidableEq, Repr

abbrev JobStore : Type := List IngestionJob

/-- `db.query(IngestionJob).filter(IngestionJob.id == job_id).first()`. -/
def findJob (db : JobStore) (jobId : String) : Option IngestionJob :=
  db.find? (fun j => j.id = jobId)

/-- `db.query(IngestionJob).filter(IngestionJob.url == key).first()`. -/
def findByUrl (db : JobStore) (key : String) : Option IngestionJob :=
  db.find? (fun j => j.url = key)

/-- `job.status = st; db.commit()`. -/
def setStatus (db : JobStore) (jobId : String) (st : String) : JobStore :=
  db.map (fun j => if j.id = jobId then { j with status := st } else j)

/-- The four job statuses the spec admits (§3). -/
def specStatuses : List String := ["PENDING", "PROCESSING", "COMPLETED", "FAILED"]

/-- Outcome of the external I/O feeding an extraction: the URL fetch plus
BeautifulSoup text of `fetch_and_clean_text`, or the PyPDF2 / python-docx
text of `extract_text_from_pdf` / `extract_text_from_docx`.  `ok raw`
carries the raw extracted text before whitespace cleanup; `error` is a
raised exception (HTTP error, unreadable file, ...). -/
inductive FetchResult where
  | ok (raw : List Char)
  | error (msg : String)
deriving DecidableEq, Repr

/-- `fetch_and_clean_text(url)` (ingest.py lines 36-63): on success, clean
the soup text; every exception is re-raised. -/
def fetch_and_clean_text (fetched : FetchResult) : Except String (List Char) :=
  match fetched with
  | .error m => .error m
  | .ok raw => .ok (cleanWhitespace raw)

def pdfContentType : String := "application/pdf"

def docxContentType : String :=
  "application/vnd.openxmlformats-officedocument.wordprocessingml.document"

/-- `fetch_and_clean_file(file_path, content_type)` (ingest.py lines
119-131): dispatch on content type (raising `ValueError` otherwise), then
apply the same whitespace cleanup. -/
def fetch_and_clean_file (contentType : String) (extracted : FetchResult) :
    Except String (List Char) :=
  if contentType = pdfContentType ∨ contentType = docxContentType then
    match extracted with
    | .error m => .error m
    | .ok raw => .ok (cleanWhitespace raw)
  else .error "Unsupported document type."

deriving instance DecidableEq for Except

/-- Result of one worker-task run: the final job store and collection, the
sequence of status values committed to the job row, and whether the task
returned normally (`.ok`) or re-raised an exception to Celery (`.error`). -/
structure TaskResult where
  db : JobStore
  col : Collection
  statusWrites : List String
  outcome : Except String Unit
deriving DecidableEq, Repr

/-- `process_url_task` (tasks.py lines 6-58).  Missing job: return with no
side effect.  Otherwise commit `PROCESSING`, fetch and clean (an empty
cleaned text raises `ValueError`), chunk, store, commit `COMPLETED`; any
exception commits `FAILED` and is re-raised. -/
def process_url_task (db : JobStore) (col : Collection)
    (jobId url : String) (fetched : FetchResult) : TaskResult :=
  match findJob db jobId with
  | none => ⟨db, col, [], .ok ()⟩
  | some _ =>
    let db1 := setStatus db jobId "PROCESSING"
    match fetch_and_clean_text fetched with
    | .error e =>
      ⟨setStatus db1 jobId "FAILED", col, ["PROCESSING", "FAILED"], .error e⟩
    | .ok text =>
      if text.isEmpty then
        ⟨setStatus db1 jobId "FAILED", col, ["PROCESSING", "FAILED"],
          .error "Failed to get any text content from URL."⟩
      else
        let chunks := (chunk_text text).map (fun l => String.mk l)
        let col1 := store_chunks_in_db url chunks col
        ⟨setStatus db1 jobId "COMPLETED", col1, ["PROCESSING", "COMPLETED"],
          .ok ()⟩

/-- `process_file_task` (tasks.py lines 61-90).  Missing job: return.
Otherwise commit `"RUNNING"`, extract and clean (no emptiness check),
chunk, store under `job.url`, commit `COMPLETED`; any exception commits
`FAILED`, is printed, and the task returns normally (no re-raise). -/
def process_file_task (db : JobStore) (col : Collection)
    (jobId filePath contentType : String) (extracted : FetchResult) :
    TaskResult :=
  match findJob db jobId with
  | none => ⟨db, col, [], .ok ()⟩
  | some job =>
    let db1 := setStatus db jobId "RUNNING"
    match fetch_and_clean_file contentType extracted with
    | .error _ =>
      ⟨setStatus db1 jobId "FAILED", col, ["RUNNING", "FAILED"], .ok ()⟩
    | .ok text =>
      let chunks := (chunk_text text).map (fun l => String.mk l)
      let col1 := store_file_chunks_in_db job.url chunks col
      ⟨setStatus db1 jobId "COMPLETED", col1, ["RUNNING", "COMPLETED"], .ok ()⟩

/-! ## API endpoints (`main.py`) -/

inductive IngestOutcome where
  /-- HTTP 202 with the new job id. -/
  | accepted (jobId : String)
  /-- HTTP 409 with the detail string built by the endpoint. -/
  | conflict (detail : String)
  /-- HTTP 400 (unsupported upload content type). -/
  | badRequest (detail : String)
  /-- HTTP 500 raised by a blanket `except Exception` handler, wrapping
  `str(e)` of the caught exception. -/
  | serverError (detail : String)
deriving DecidableEq, Repr

/-- Python `str(e)` for a `fastapi.HTTPException`: starlette's
`HTTPException.__str__` renders `f"{self.status_code}: {self.detail}"`. -/
def httpExceptionStr (statusCode : Nat) (detail : String) : String :=
  toString statusCode ++ ": " ++ detail

/-- Result of one submission request: the job store afterwards, the Celery
tasks dispatched (task name and args), and the HTTP outcome. -/
structure ApiResult where
  db : JobStore
  dispatched : List (String × List String)
  outcome : IngestOutcome
deriving DecidableEq, Repr

/-- `POST /ingest-url` (main.py lines 56-94).  `newId` models the unique id
the database generates for the new row. -/
def ingest_url (db : JobStore) (newId : String) (url : String) : ApiResult :=
  match findByUrl db url with
  | some existing =>
    ⟨db, [],
      .conflict ("URL has already been submitted. Job ID: " ++ existing.id ++
        ", Status: " ++ existing.status)⟩
  | none =>
    ⟨db ++ [⟨newId, url, "PENDING"⟩],
      [("process_url_task", [newId, url])], .accepted newId⟩

/-- `os.path.basename`: the final path component. -/
def basename (p : String) : String :=
  String.mk ((p.data.reverse.takeWhile (fun c => ¬ c = '/')).reverse)

/-- `POST /ingest-file` (main.py lines 114-169).  `tmpFilePath` is the name
of the `NamedTemporaryFile` the upload was copied to — the uploaded bytes
themselves never reach the job row, whose source key is
`os.path.basename(tmp_filepath)`.

The duplicate check raises its HTTP 409 `HTTPException` *inside* the
`try` (lines 140-145), and unlike `ingest_url` — which passes
`HTTPException` through (lines 86-88) — this endpoint's only handler is
the blanket `except Exception as e` (lines 164-169): it rolls back
(nothing was added) and re-raises HTTP 500 with detail
`f"Failed to create and schedule file ingest job: {str(e)}"`.  So a
duplicate submission is surfaced as a 500 wrapping `str(e)` of the 409,
never as the 409 conflict itself. -/
def ingest_file (db : JobStore) (newId : String)
    (tmpFilePath contentType : String) : ApiResult :=
  if ¬ (contentType = pdfContentType ∨ contentType = docxContentType) then
    ⟨db, [], .badRequest "Only PDF and DOCX files are supported."⟩
  else
    match findByUrl db (basename tmpFilePath) with
    | some existing =>
      ⟨db, [],
        .serverError ("Failed to create and schedule file ingest job: " ++
          httpExceptionStr 409 ("File has already been submitted. Job ID: " ++
            existing.id ++ ", Status: " ++ existing.status))⟩
    | none =>
      ⟨db ++ [⟨newId, basename tmpFilePath, "PENDING"⟩],
        [("process_file_task", [newId, tmpFilePath, contentType])],
        .accepted newId⟩

/-! ## Query pipeline (`query.py`) -/

/-- What `collection.query(query_texts=[...], n_results=3)` returned for
the single query text: `results['documents'][0]` and
`results['metadatas'][0]`, position-aligned. -/
structure RetrievedSet where
  documents : List String
  metadatas : List ChunkMeta
deriving DecidableEq, Repr

structure QueryOutput where
  answer : String
  sources : List String
  generationCalled : Bool
deriving DecidableEq, Repr

def notFoundAnswer : String := "I could not find an answer in the ingested content."

/-- `meta.get('source_url', '')` (query.py line 109). -/
def metaSourceUrl (m : ChunkMeta) : String := m.source_url.getD ""

/-- `query_rag_engine(query_text)` (query.py lines 36-118), parameterised
by its two external oracles: the retrieval result for the (enriched)
query, and the answer the generation model would return for the built
prompt.  `generationCalled` records whether the answer-generation
completion (`groq_client`, step 3) was invoked; the fallback-guarded
enrichment call of step 1 is part of producing `results` and is not the
generation stage. -/
def query_rag_engine (results : RetrievedSet) (genAnswer : String) :
    QueryOutput :=
  if results.documents.isEmpty then
    ⟨notFoundAnswer, [], false⟩
  else
    ⟨genAnswer, (results.metadatas.map metaSourceUrl).dedup, true⟩

/-! ## Supporting lemmas -/

theorem find?_eq_none_of_forall {α : Type} (p : α → Bool) (l : List α)
    (h : ∀ a ∈ l, p a = false) : l.find? p = none := by
  induction l with
  | nil => rfl
  | cons a t ih =>
    rw [List.find?_cons, h a (List.mem_cons_self a t)]
    exact ih (fun b hb => h b (List.mem_cons_of_mem a hb))

theorem mem_collectionUpsert {col : Collection} {id : String}
    {c : StoredChunk} {p : String × StoredChunk}
    (h : p ∈ collectionUpsert col id c) : p ∈ col ∨ p = (id, c) := by
  unfold collectionUpsert at h
  by_cases hany : col.any (fun q => q.1 = id)
  · rw [if_pos hany] at h
    obtain ⟨q, hq, hfq⟩ := List.mem_map.mp h
    by_cases hid : q.1 = id
    · right; rw [if_pos hid] at hfq; exact hfq.symm
    · left; rw [if_neg hid] at hfq; exact hfq ▸ hq
  · rw [if_neg hany] at h
    rcases List.mem_append.mp h with h' | h'
    · exact Or.inl h'
    · exact Or.inr (List.mem_singleton.mp h')

theorem mem_collectionAdd {es : List (String × StoredChunk)} :
    ∀ {col : Collection} {p : String × StoredChunk},
      p ∈ collectionAdd col es → p ∈ col ∨ p ∈ es := by
  induction es with
  | nil => intro col p h; exact Or.inl h
  | cons e es ih =>
    intro col p h
    rcases @ih (collectionUpsert col e.1 e.2) p h with h' | h'
    · rcases mem_collectionUpsert h' with h'' | h''
      · exact Or.inl h''
      · exact Or.inr (h'' ▸ List.mem_cons_self e es)
    · exact Or.inr (List.mem_cons_of_mem e h')

theorem ids_collectionUpsert_present {col : Collection} {id : String}
    {c : StoredChunk} (hany : col.any (fun q => q.1 = id) = true) :
    collectionIds (collectionUpsert col id c) = collectionIds col := by
  unfold collectionUpsert collectionIds
  rw [if_pos hany, List.map_map]
  apply List.map_congr_left
  intro p _
  by_cases h : p.1 = id
  · simp [h]
  · simp [h]

theorem mem_ids_collectionUpsert {col : Collection} {id x : String}
    {c : StoredChunk} :
    x ∈ collectionIds (collectionUpsert col id c) ↔
      x ∈ collectionIds col ∨ x = id := by
  by_cases hany : col.any (fun q => q.1 = id)
  · rw [ids_collectionUpsert_present hany]
    obtain ⟨q, hq, hqid⟩ := List.any_eq_true.mp hany
    have hidmem : id ∈ collectionIds col :=
      List.mem_map.mpr ⟨q, hq, of_decide_eq_true hqid⟩
    constructor
    · exact Or.inl
    · rintro (h | rfl)
      · exact h
      · exact hidmem
  · unfold collectionUpsert
    rw [if_neg hany]
    unfold collectionIds
    rw [List.map_append]
    simp [List.mem_append]

theorem mem_ids_collectionAdd {es : List (String × StoredChunk)} :
    ∀ {col : Collection} {x : String},
      x ∈ collectionIds (collectionAdd col es) ↔
        x ∈ collectionIds col ∨ x ∈ es.map (fun e => e.1) := by
  induction es with
  | nil => intro col x; simp [collectionAdd]
  | cons e es ih =>
    intro col x
    show x ∈ collectionIds (collectionAdd (collectionUpsert col e.1 e.2) es) ↔ _
    rw [ih, mem_ids_collectionUpsert]
    simp only [List.map_cons, List.mem_cons]
    tauto

theorem ids_store_chunks_toFinset (url : String) (chunks : List String)
    (col : Collection) :
    (collectionIds (store_chunks_in_db url chunks col)).toFinset =
      (collectionIds col).toFinset ∪ (chunkIds url chunks).toFinset := by
  unfold store_chunks_in_db
  by_cases h : chunks.isEmpty
  · rw [if_pos h]
    rw [List.isEmpty_iff] at h
    subst h
    simp [chunkIds]
  · rw [if_neg h]
    ext x
    simp only [List.mem_toFinset, Finset.mem_union]
    rw [mem_ids_collectionAdd, List.map_map]
    rfl

theorem ids_store_file_chunks_toFinset (fn : String) (chunks : List String)
    (col : Collection) :
    (collectionIds (store_file_chunks_in_db fn chunks col)).toFinset =
      (collectionIds col).toFinset ∪ (chunkIds fn chunks).toFinset := by
  unfold store_file_chunks_in_db
  by_cases h : chunks.isEmpty
  · rw [if_pos h]
    rw [List.isEmpty_iff] at h
    subst h
    simp [chunkIds]
  · rw [if_neg h]
    ext x
    simp only [List.mem_toFinset, Finset.mem_union]
    rw [mem_ids_collectionAdd, List.map_map]
    rfl

theorem findByUrl_none_iff {db : JobStore} {key : String} :
    findByUrl db key = none ↔ ∀ j ∈ db, j.url ≠ key := by
  unfold findByUrl
  rw [List.find?_eq_none]
  constructor
  · intro h j hj hc
    exact h j hj (by simp [hc])
  · intro h j hj hc
    exact h j hj (by simpa using hc)

/-! ## Claim theorems -/

/-- C2: running the storage step twice for the same source key and the same
chunk list leaves the knowledge store with the same set of chunk ids as
running it once; the ids are the deterministic composites
`f"{source_key}_{i}"` (`chunkIds`), and upserting an id that already
exists overwrites the entry (adding nothing new to the id set).  Holds for
the URL store path and the file store path alike. -/
theorem store_chunk_ids_idempotent :
    (∀ url chunks col,
      (collectionIds (store_chunks_in_db url chunks col)).toFinset =
        (collectionIds col).toFinset ∪ (chunkIds url chunks).toFinset) ∧
    (∀ fn chunks col,
      (collectionIds (store_file_chunks_in_db fn chunks col)).toFinset =
        (collectionIds col).toFinset ∪ (chunkIds fn chunks).toFinset) ∧
    (∀ url chunks col,
      (collectionIds
          (store_chunks_in_db url chunks
            (store_chunks_in_db url chunks col))).toFinset =
        (collectionIds (store_chunks_in_db url chunks col)).toFinset) ∧
    (∀ fn chunks col,
      (collectionIds
          (store_file_chunks_in_db fn chunks
            (store_file_chunks_in_db fn chunks col))).toFinset =
        (collectionIds (store_file_chunks_in_db fn chunks col)).toFinset) ∧
    (∀ (col : Collection) (id : String) (c : StoredChunk),
      id ∈ collectionIds col →
        collectionIds (collectionUpsert col id c) = collectionIds col) := by
  refine ⟨ids_store_chunks_toFinset, ids_store_file_chunks_toFinset, ?_, ?_, ?_⟩
  · intro url chunks col
    rw [ids_store_chunks_toFinset, ids_store_chunks_toFinset,
      Finset.union_assoc, Finset.union_self]
  · intro fn chunks col
    rw [ids_store_file_chunks_toFinset, ids_store_file_chunks_toFinset,
      Finset.union_assoc, Finset.union_self]
  · intro col id c hid
    apply ids_collectionUpsert_present
    obtain ⟨q, hq, hqid⟩ := List.mem_map.mp hid
    exact List.any_eq_true.mpr ⟨q, hq, by simp [hqid]⟩

/-- Witness for C2's overwrite clause at a concrete store. -/
theorem store_chunk_ids_idempotent_witness :
    "a_0" ∈ collectionIds [("a_0", ⟨"t", ⟨some "a", none⟩⟩)] ∧
    collectionIds
        (collectionUpsert [("a_0", ⟨"t", ⟨some "a", none⟩⟩)] "a_0"
          ⟨"s", ⟨some "a", none⟩⟩) =
      collectionIds [("a_0", ⟨"t", ⟨some "a", none⟩⟩)] :=
  ⟨by decide,
    store_chunk_ids_idempotent.2.2.2.2 [("a_0", ⟨"t", ⟨some "a", none⟩⟩)]
      "a_0" ⟨"s", ⟨some "a", none⟩⟩ (by decide)⟩

/-- C5 (divergence witness): resubmitting an existing source key is always
rejected — no second row, no dispatch, store unchanged — so every
submission preserves key-uniqueness of the job store, and the URL
endpoint surfaces the rejection as the HTTP 409 conflict naming the
existing job's id and status.  But the file endpoint's blanket
`except Exception` catches its own 409 and re-raises an HTTP 500
wrapping `str(e)`, so the file path never returns the
`DuplicateSubmission` conflict the claim requires. -/
theorem duplicate_submission_rejection :
    (∀ (db : JobStore) (newId url : String) (j : IngestionJob),
      findByUrl db url = some j →
      ingest_url db newId url =
        ⟨db, [],
          .conflict ("URL has already been submitted. Job ID: " ++ j.id ++
            ", Status: " ++ j.status)⟩) ∧
    (∀ (db : JobStore) (newId tmp ct : String) (j : IngestionJob),
      (ct = pdfContentType ∨ ct = docxContentType) →
      findByUrl db (basename tmp) = some j →
      ingest_file db newId tmp ct =
        ⟨db, [],
          .serverError ("Failed to create and schedule file ingest job: " ++
            httpExceptionStr 409
              ("File has already been submitted. Job ID: " ++ j.id ++
                ", Status: " ++ j.status))⟩ ∧
      ∀ d, (ingest_file db newId tmp ct).outcome ≠ .conflict d) ∧
    (∀ (db : JobStore) (newId url : String),
      (db.map IngestionJob.url).Nodup →
      (((ingest_url db newId url).db).map IngestionJob.url).Nodup) ∧
    (∀ (db : JobStore) (newId tmp ct : String),
      (db.map IngestionJob.url).Nodup →
      (((ingest_file db newId tmp ct).db).map IngestionJob.url).Nodup) := by
  refine ⟨?_, ?_, ?_, ?_⟩
  · intro db newId url j h
    unfold ingest_url
    rw [h]
  · intro db newId tmp ct j hct h
    have hres : ingest_file db newId tmp ct =
        ⟨db, [],
          .serverError ("Failed to create and schedule file ingest job: " ++
            httpExceptionStr 409
              ("File has already been submitted. Job ID: " ++ j.id ++
                ", Status: " ++ j.status))⟩ := by
      unfold ingest_file
      rw [if_neg (not_not_intro hct), h]
    refine ⟨hres, ?_⟩
    intro d
    rw [hres]
    simp
  · intro db newId url hnd
    unfold ingest_url
    cases hf : findByUrl db url with
    | some j => exact hnd
    | none =>
      show ((db ++ [(⟨newId, url, "PENDING"⟩ : IngestionJob)]).map IngestionJob.url).Nodup
      rw [List.map_append]
      refine List.Nodup.append hnd (List.nodup_singleton url) ?_
      intro x hx hx'
      obtain ⟨j, hj, hju⟩ := List.mem_map.mp hx
      simp only [List.map_cons, List.map_nil, List.mem_singleton] at hx'
      exact (findByUrl_none_iff.mp hf j hj) (hju.trans hx')
  · intro db newId tmp ct hnd
    unfold ingest_file
    by_cases hct : ¬ (ct = pdfContentType ∨ ct = docxContentType)
    · rw [if_pos hct]; exact hnd
    · rw [if_neg hct]
      cases hf : findByUrl db (basename tmp) with
      | some j => exact hnd
      | none =>
        show ((db ++ [(⟨newId, basename tmp, "PENDING"⟩ : IngestionJob)]).map
          IngestionJob.url).Nodup
        rw [List.map_append]
        refine List.Nodup.append hnd (List.nodup_singleton _) ?_
        intro x hx hx'
        obtain ⟨j, hj, hju⟩ := List.mem_map.mp hx
        simp only [List.map_cons, List.map_nil, List.mem_singleton] at hx'
        exact (findByUrl_none_iff.mp hf j hj) (hju.trans hx')

/-- Witness for C5 at a concrete store: resubmitting `http://a` while job
`1` holds it yields the 409 conflict naming job `1`, while a duplicate
file upload yields the 500 wrapping the conflict text; neither changes
the store or dispatches. -/
theorem duplicate_submission_rejection_witness :
    ingest_url [⟨"1", "http://a", "COMPLETED"⟩] "2" "http://a" =
      ⟨[⟨"1", "http://a", "COMPLETED"⟩], [],
        .conflict
          "URL has already been submitted. Job ID: 1, Status: COMPLETED"⟩ ∧
    ingest_file [⟨"1", "tmpaaa.pdf", "COMPLETED"⟩] "2" "/tmp/tmpaaa.pdf"
        pdfContentType =
      ⟨[⟨"1", "tmpaaa.pdf", "COMPLETED"⟩], [],
        .serverError
          "Failed to create and schedule file ingest job: 409: File has already been submitted. Job ID: 1, Status: COMPLETED"⟩ := by
  constructor
  · have h := duplicate_submission_rejection.1 [⟨"1", "http://a", "COMPLETED"⟩]
      "2" "http://a" ⟨"1", "http://a", "COMPLETED"⟩ (by decide)
    rw [h]
    decide
  · have h := (duplicate_submission_rejection.2.1
      [⟨"1", "tmpaaa.pdf", "COMPLETED"⟩] "2" "/tmp/tmpaaa.pdf" pdfContentType
      ⟨"1", "tmpaaa.pdf", "COMPLETED"⟩ (Or.inl rfl) (by decide)).1
    rw [h]
    decide

/-- C7: when retrieval returns zero matches, the query pipeline returns
exactly the fixed not-found answer with an empty sources list and the
answer-generation call is never made. -/
theorem query_empty_retrieval_short_circuit (results : RetrievedSet)
    (genAnswer : String) (h : results.documents = []) :
    query_rag_engine results genAnswer =
      ⟨notFoundAnswer, [], false⟩ := by
  simp [query_rag_engine, h]

/-- Witness for C7 on the empty retrieval result. -/
theorem query_empty_retrieval_short_circuit_witness :
    query_rag_engine ⟨[], []⟩ "anything" = ⟨notFoundAnswer, [], false⟩ :=
  query_empty_retrieval_short_circuit ⟨[], []⟩ "anything" rfl

/-- C10: the source key of a file upload is the basename of the freshly
created temporary file — the uploaded bytes are not an input to the key at
all — so whenever that name is fresh (no existing job row carries it, the
guarantee `tempfile.NamedTemporaryFile` provides), the duplicate check
passes, a new `PENDING` job row is appended and the file task is
dispatched. -/
theorem fresh_upload_always_accepted (db : JobStore) (newId tmp ct : String)
    (hct : ct = pdfContentType ∨ ct = docxContentType)
    (hfresh : ∀ j ∈ db, j.url ≠ basename tmp) :
    ingest_file db newId tmp ct =
      ⟨db ++ [⟨newId, basename tmp, "PENDING"⟩],
        [("process_file_task", [newId, tmp, ct])], .accepted newId⟩ := by
  unfold ingest_file
  rw [if_neg (not_not_intro hct), findByUrl_none_iff.mpr hfresh]

/-- Witness for C10: a second upload, even were its bytes identical, gets a
fresh temp name and is accepted as a new job next to the existing one. -/
theorem fresh_upload_always_accepted_witness :
    ingest_file [⟨"1", "tmpaaa.pdf", "COMPLETED"⟩] "2" "/tmp/tmpbbb.pdf"
        pdfContentType =
      ⟨[⟨"1", "tmpaaa.pdf", "COMPLETED"⟩, ⟨"2", "tmpbbb.pdf", "PENDING"⟩],
        [("process_file_task", ["2", "/tmp/tmpbbb.pdf", pdfContentType])],
        .accepted "2"⟩ := by
  have h := fresh_upload_always_accepted [⟨"1", "tmpaaa.pdf", "COMPLETED"⟩]
    "2" "/tmp/tmpbbb.pdf" pdfContentType (Or.inl rfl) (by decide)
  rw [h]
  decide

/-- C1 (divergence witness): `process_file_task` on a PDF job whose pages
yield no extractable text (raw extracted text empty) commits `COMPLETED`,
stores nothing, and returns normally — the job does not end `FAILED` as
the spec's `EmptyContent` contract requires.  (The URL task does raise on
empty text; the file task has no such check.) -/
theorem process_file_empty_pdf_marked_completed :
    process_file_task [⟨"job-1", "tmpabc.pdf", "PENDING"⟩] emptyCollection
        "job-1" "/tmp/tmpabc.pdf" pdfContentType (.ok []) =
      ⟨[⟨"job-1", "tmpabc.pdf", "COMPLETED"⟩], emptyCollection,
        ["RUNNING", "COMPLETED"], .ok ()⟩ := by
  decide

/-- C3 (divergence witness): when extraction fails inside
`process_file_task`, the job is marked `FAILED` but the exception is
swallowed (`print` only) — the task returns `.ok ()` instead of
re-raising, so the failure never propagates to the task dispatcher.  (The
URL task does re-raise.) -/
theorem process_file_failure_not_propagated :
    process_file_task [⟨"job-1", "tmpabc.pdf", "PENDING"⟩] emptyCollection
        "job-1" "/tmp/tmpabc.pdf" pdfContentType (.error "fetch failed") =
      ⟨[⟨"job-1", "tmpabc.pdf", "FAILED"⟩], emptyCollection,
        ["RUNNING", "FAILED"], .ok ()⟩ := by
  decide

/-- C4 (divergence witness): the first status `process_file_task` commits
for an existing `PENDING` job is the string `"RUNNING"`, which is not
among the spec's four statuses and is not the `PENDING → PROCESSING`
transition the claim requires. -/
theorem process_file_first_status_write_running :
    (process_file_task [⟨"job-1", "tmpabc.pdf", "PENDING"⟩] emptyCollection
        "job-1" "/tmp/tmpabc.pdf" pdfContentType
        (.error "boom")).statusWrites.head? = some "RUNNING" ∧
    "RUNNING" ∉ specStatuses ∧
    some "RUNNING" ≠ some "PROCESSING" := by
  decide

/-- C6 (counterexample): a chunk ingested through the file path carries its
source key under metadata key `source_file`, but the query path reads
`source_url` with default `''` — so a retrieval set consisting of that
chunk reports `sources = [""]`, not the originating source key. -/
theorem query_file_chunk_attribution_counterexample :
    (query_rag_engine
        ⟨(store_file_chunks_in_db "f.pdf" ["hello"] emptyCollection).map
            (fun p => p.2.text),
          (store_file_chunks_in_db "f.pdf" ["hello"] emptyCollection).map
            (fun p => p.2.meta)⟩ "some answer").sources = [""] ∧
    (query_rag_engine
        ⟨(store_file_chunks_in_db "f.pdf" ["hello"] emptyCollection).map
            (fun p => p.2.text),
          (store_file_chunks_in_db "f.pdf" ["hello"] emptyCollection).map
            (fun p => p.2.meta)⟩ "some answer").sources ≠ ["f.pdf"] := by
  decide

/-- C6 (amended): for non-empty retrieval, `sources` is the de-duplicated
set of values read from metadata key `source_url` (default `''`);
URL-ingested chunks do carry their source key there, while file-ingested
chunks carry it under `source_file` only (with no `source_url`), so they
contribute `''` rather than their source key. -/
theorem query_sources_amended :
    (∀ (url : String) (chunks : List String) (col : Collection) p,
      p ∈ store_chunks_in_db url chunks col →
      p ∈ col ∨ p.2.meta.source_url = some url) ∧
    (∀ (fn : String) (chunks : List String) (col : Collection) p,
      p ∈ store_file_chunks_in_db fn chunks col →
      p ∈ col ∨ (p.2.meta.source_file = some fn ∧
        p.2.meta.source_url = none)) ∧
    (∀ (results : RetrievedSet) (genAnswer : String),
      results.documents ≠ [] →
      ((query_rag_engine results genAnswer).sources).toFinset =
        (results.metadatas.map metaSourceUrl).toFinset) := by
  refine ⟨?_, ?_, ?_⟩
  · intro url chunks col p hp
    unfold store_chunks_in_db at hp
    by_cases h : chunks.isEmpty
    · rw [if_pos h] at hp; exact Or.inl hp
    · rw [if_neg h] at hp
      rcases mem_collectionAdd hp with h' | h'
      · exact Or.inl h'
      · right
        obtain ⟨q, _, hq⟩ := List.mem_map.mp h'
        rw [← hq]
  · intro fn chunks col p hp
    unfold store_file_chunks_in_db at hp
    by_cases h : chunks.isEmpty
    · rw [if_pos h] at hp; exact Or.inl hp
    · rw [if_neg h] at hp
      rcases mem_collectionAdd hp with h' | h'
      · exact Or.inl h'
      · right
        obtain ⟨q, _, hq⟩ := List.mem_map.mp h'
        rw [← hq]
        exact ⟨rfl, rfl⟩
  · intro results genAnswer h
    unfold query_rag_engine
    rw [if_neg (by simpa [List.isEmpty_iff] using h)]
    ext x
    simp [List.mem_dedup]

/-- Witness for C6's amended statement on a URL-ingested chunk. -/
theorem query_sources_amended_witness :
    (("u_0", (⟨"t", ⟨some "u", none⟩⟩ : StoredChunk)) ∈
        store_chunks_in_db "u" ["t"] emptyCollection) ∧
    (("u_0", (⟨"t", ⟨some "u", none⟩⟩ : StoredChunk)) ∈ emptyCollection ∨
      (("u_0", (⟨"t", ⟨some "u", none⟩⟩ : StoredChunk)).2.meta.source_url =
        some "u")) ∧
    ((query_rag_engine ⟨["t"], [⟨some "u", none⟩]⟩ "ans").sources).toFinset =
      (([⟨some "u", none⟩] : List ChunkMeta).map metaSourceUrl).toFinset :=
  ⟨by decide,
    query_sources_amended.1 "u" ["t"] emptyCollection _ (by decide),
    query_sources_amended.2.2 ⟨["t"], [⟨some "u", none⟩]⟩ "ans" (by decide)⟩

/-! ## Lemmas for the whitespace-normalization pass (C8) -/

theorem twoStepInduction {α : Type} {P : List α → Prop} (h0 : P [])
    (h1 : ∀ c, P [c])
    (h2 : ∀ c d rest, P (d :: rest) → P rest → P (c :: d :: rest)) :
    ∀ l, P l
  | [] => h0
  | [c] => h1 c
  | c :: d :: rest =>
    h2 c d rest (twoStepInduction h0 h1 h2 (d :: rest))
      (twoStepInduction h0 h1 h2 rest)

theorem boundary_is_space {c : Char} (h : isLineBoundary c = true) :
    isPySpace c = true := by
  simp only [isLineBoundary, decide_eq_true_eq] at h
  rcases h with rfl | rfl | rfl | rfl | rfl | rfl | rfl | rfl | rfl | rfl <;>
    decide

theorem dropWhile_head_false {p : Char → Bool} :
    ∀ {l t : List Char} {c : Char}, l.dropWhile p = c :: t → p c = false := by
  intro l
  induction l with
  | nil => intro t c h; exact absurd h (by simp)
  | cons a l ih =>
    intro t c h
    by_cases hp : p a
    · rw [List.dropWhile_cons_of_pos hp] at h
      exact ih h
    · rw [List.dropWhile_cons_of_neg hp] at h
      cases h
      exact Bool.not_eq_true _ ▸ (by simpa using hp)

theorem dropWhile_eq_self_of_head {p : Char → Bool} {l : List Char}
    (h : ∀ t c, l = c :: t → p c = false) : l.dropWhile p = l := by
  cases l with
  | nil => rfl
  | cons a l => exact List.dropWhile_cons_of_neg (by simp [h l a rfl])

theorem exists_append_dropWhile (p : Char → Bool) :
    ∀ l : List Char, ∃ x, l = x ++ l.dropWhile p := by
  intro l
  induction l with
  | nil => exact ⟨[], rfl⟩
  | cons a l ih =>
    by_cases hp : p a
    · obtain ⟨x, hx⟩ := ih
      exact ⟨a :: x, by rw [List.dropWhile_cons_of_pos hp]; simpa using hx⟩
    · exact ⟨[], by rw [List.dropWhile_cons_of_neg hp]; simp⟩

theorem exists_dropEndWhile_append (p : Char → Bool) (l : List Char) :
    ∃ y, l = dropEndWhile p l ++ y := by
  obtain ⟨x, hx⟩ := exists_append_dropWhile p l.reverse
  refine ⟨x.reverse, ?_⟩
  unfold dropEndWhile
  calc l = l.reverse.reverse := (List.reverse_reverse l).symm
    _ = (x ++ l.reverse.dropWhile p).reverse := by rw [← hx]
    _ = (l.reverse.dropWhile p).reverse ++ x.reverse := by
        rw [List.reverse_append]

theorem exists_pyStrip_middle (l : List Char) :
    ∃ x y, l = x ++ pyStrip l ++ y := by
  obtain ⟨x, hx⟩ := exists_append_dropWhile isPySpace l
  obtain ⟨y, hy⟩ := exists_dropEndWhile_append isPySpace
    (l.dropWhile isPySpace)
  refine ⟨x, y, ?_⟩
  unfold pyStrip
  rw [List.append_assoc, ← hy]
  exact hx

theorem mem_of_mem_pyStrip {c : Char} {l : List Char}
    (h : c ∈ pyStrip l) : c ∈ l := by
  obtain ⟨x, y, hxy⟩ := exists_pyStrip_middle l
  rw [hxy]
  simp only [List.mem_append]
  exact Or.inl (Or.inr h)

theorem pyStrip_head_false {l t : List Char} {c : Char}
    (h : pyStrip l = c :: t) : isPySpace c = false := by
  unfold pyStrip at h
  obtain ⟨y, hy⟩ := exists_dropEndWhile_append isPySpace
    (l.dropWhile isPySpace)
  rw [h] at hy
  exact dropWhile_head_false (l := l) hy

theorem pyStrip_reverse_head_false {l t : List Char} {c : Char}
    (h : (pyStrip l).reverse = c :: t) : isPySpace c = false := by
  unfold pyStrip dropEndWhile at h
  rw [List.reverse_reverse] at h
  exact dropWhile_head_false h

theorem pyStrip_idempotent (l : List Char) : pyStrip (pyStrip l) = pyStrip l := by
  have h1 : (pyStrip l).dropWhile isPySpace = pyStrip l :=
    dropWhile_eq_self_of_head (fun t c h => pyStrip_head_false h)
  show dropEndWhile isPySpace ((pyStrip l).dropWhile isPySpace) = pyStrip l
  rw [h1]
  unfold dropEndWhile
  have h2 : (pyStrip l).reverse.dropWhile isPySpace = (pyStrip l).reverse :=
    dropWhile_eq_self_of_head (fun t c h => pyStrip_reverse_head_false h)
  rw [h2, List.reverse_reverse]

theorem hasDoubleSpace_iff {l : List Char} :
    hasDoubleSpace l = true ↔ ∃ x y, l = x ++ ' ' :: ' ' :: y := by
  constructor
  · induction l using twoStepInduction with
    | h0 => intro h; exact absurd h (by simp [hasDoubleSpace])
    | h1 c => intro h; exact absurd h (by simp [hasDoubleSpace])
    | h2 c d rest ih _ =>
      intro h
      rw [hasDoubleSpace, Bool.or_eq_true, decide_eq_true_eq] at h
      rcases h with ⟨rfl, rfl⟩ | h
      · exact ⟨[], rest, rfl⟩
      · obtain ⟨x, y, hxy⟩ := ih h
        exact ⟨c :: x, y, by rw [List.cons_append, ← hxy]⟩
  · rintro ⟨x, y, rfl⟩
    induction x with
    | nil => simp [hasDoubleSpace]
    | cons a x ih =>
      cases hx : x ++ ' ' :: ' ' :: y with
      | nil => exact absurd hx (by simp)
      | cons b t =>
        rw [List.cons_append, hx, hasDoubleSpace, Bool.or_eq_true]
        exact Or.inr (hx ▸ ih)

theorem hasDoubleSpace_middle {l m x y : List Char} (hl : l = x ++ m ++ y)
    (h : hasDoubleSpace l = false) : hasDoubleSpace m = false := by
  by_contra hm
  rw [Bool.not_eq_false] at hm
  obtain ⟨u, v, huv⟩ := hasDoubleSpace_iff.mp hm
  have : hasDoubleSpace l = true := hasDoubleSpace_iff.mpr
    ⟨x ++ u, v ++ y, by rw [hl, huv]; simp⟩
  rw [this] at h
  exact absurd h (by simp)

theorem hasDoubleSpace_pyStrip {l : List Char}
    (h : hasDoubleSpace l = false) : hasDoubleSpace (pyStrip l) = false := by
  obtain ⟨x, y, hxy⟩ := exists_pyStrip_middle l
  exact hasDoubleSpace_middle hxy h

theorem pySplitDoubleSpace_ne_nil : ∀ l, pySplitDoubleSpace l ≠ [] := by
  intro l
  induction l using twoStepInduction with
  | h0 => simp [pySplitDoubleSpace]
  | h1 c => simp [pySplitDoubleSpace]
  | h2 c d rest ih1 ih2 =>
    by_cases h : c = ' ' ∧ d = ' '
    · simp only [pySplitDoubleSpace]
      rw [if_pos h]
      simp
    · simp only [pySplitDoubleSpace]
      rw [if_neg h]
      cases hs : pySplitDoubleSpace (d :: rest) with
      | nil => exact absurd hs ih1
      | cons a t => simp

theorem pySplitDoubleSpace_head_start :
    ∀ l, ∃ p t, pySplitDoubleSpace l = p :: t ∧ ∃ y, l = p ++ y := by
  intro l
  induction l using twoStepInduction with
  | h0 => exact ⟨[], [], rfl, [], rfl⟩
  | h1 c => exact ⟨[c], [], rfl, [], rfl⟩
  | h2 c d rest ih1 ih2 =>
    by_cases h : c = ' ' ∧ d = ' '
    · refine ⟨[], pySplitDoubleSpace rest, ?_, c :: d :: rest, rfl⟩
      simp only [pySplitDoubleSpace]
      rw [if_pos h]
    · obtain ⟨p, t, hs, y, hy⟩ := ih1
      refine ⟨c :: p, t, ?_, y, by rw [List.cons_append, ← hy]⟩
      simp only [pySplitDoubleSpace]
      rw [if_neg h, hs]

theorem mem_of_mem_pySplitDoubleSpace :
    ∀ l p, p ∈ pySplitDoubleSpace l → ∀ c ∈ p, c ∈ l := by
  intro l
  induction l using twoStepInduction with
  | h0 =>
    intro p hp c hc
    simp [pySplitDoubleSpace] at hp
    subst hp
    simp at hc
  | h1 a =>
    intro p hp c hc
    simp [pySplitDoubleSpace] at hp
    subst hp
    simpa using hc
  | h2 a d rest ih1 ih2 =>
    intro p hp c hc
    by_cases h : a = ' ' ∧ d = ' '
    · simp only [pySplitDoubleSpace] at hp
      rw [if_pos h] at hp
      rcases List.mem_cons.mp hp with rfl | hp'
      · simp at hc
      · exact List.mem_cons_of_mem a
          (List.mem_cons_of_mem d (ih2 p hp' c hc))
    · simp only [pySplitDoubleSpace] at hp
      rw [if_neg h] at hp
      cases hs : pySplitDoubleSpace (d :: rest) with
      | nil => exact absurd hs (pySplitDoubleSpace_ne_nil (d :: rest))
      | cons q t =>
        rw [hs] at hp
        rcases List.mem_cons.mp hp with rfl | hp'
        · rcases List.mem_cons.mp hc with rfl | hc'
          · exact List.mem_cons_self c _
          · exact List.mem_cons_of_mem a
              (ih1 q (hs ▸ List.mem_cons_self q t) c hc')
        · exact List.mem_cons_of_mem a
            (ih1 p (hs ▸ List.mem_cons_of_mem q hp') c hc)

theorem pySplitDoubleSpace_no_ds :
    ∀ l p, p ∈ pySplitDoubleSpace l → hasDoubleSpace p = false := by
  intro l
  induction l using twoStepInduction with
  | h0 =>
    intro p hp
    simp [pySplitDoubleSpace] at hp
    subst hp
    rfl
  | h1 c =>
    intro p hp
    simp [pySplitDoubleSpace] at hp
    subst hp
    rfl
  | h2 c d rest ih1 ih2 =>
    intro p hp
    by_cases h : c = ' ' ∧ d = ' '
    · simp only [pySplitDoubleSpace] at hp
      rw [if_pos h] at hp
      rcases List.mem_cons.mp hp with rfl | hp'
      · rfl
      · exact ih2 p hp'
    · simp only [pySplitDoubleSpace] at hp
      rw [if_neg h] at hp
      cases hs : pySplitDoubleSpace (d :: rest) with
      | nil => exact absurd hs (pySplitDoubleSpace_ne_nil (d :: rest))
      | cons q t =>
        rw [hs] at hp
        rcases List.mem_cons.mp hp with rfl | hp'
        · have hqno : hasDoubleSpace q = false :=
            ih1 q (hs ▸ List.mem_cons_self q t)
          obtain ⟨p', t', hs', y, hy⟩ := pySplitDoubleSpace_head_start (d :: rest)
          rw [hs] at hs'
          injection hs' with hqp htp
          subst hqp
          cases q with
          | nil => rfl
          | cons e q' =>
            rw [List.cons_append] at hy
            injection hy with hde hrest'
            show hasDoubleSpace (c :: e :: q') = false
            rw [hasDoubleSpace, Bool.or_eq_false_iff]
            constructor
            · rw [decide_eq_false_iff_not]
              rintro ⟨hc', he'⟩
              exact h ⟨hc', by rw [hde]; exact he'⟩
            · exact hqno
        · exact ih1 p (hs ▸ List.mem_cons_of_mem q hp')

theorem pySplitDoubleSpace_eq_self :
    ∀ f, hasDoubleSpace f = false → pySplitDoubleSpace f = [f] := by
  intro f
  induction f using twoStepInduction with
  | h0 => intro _; rfl
  | h1 c => intro _; rfl
  | h2 c d rest ih1 ih2 =>
    intro h
    rw [hasDoubleSpace, Bool.or_eq_false_iff, decide_eq_false_iff_not] at h
    simp only [pySplitDoubleSpace]
    rw [if_neg h.1, ih1 h.2]

theorem pySplitlines_no_boundary :
    ∀ l line, line ∈ pySplitlines l → ∀ c ∈ line, isLineBoundary c = false := by
  intro l
  induction l using twoStepInduction with
  | h0 =>
    intro line hline c hc
    simp [pySplitlines] at hline
  | h1 a =>
    intro line hline c hc
    by_cases hb : isLineBoundary a
    · simp [pySplitlines, hb] at hline
      subst hline
      simp at hc
    · simp [pySplitlines, hb] at hline
      subst hline
      rw [List.mem_singleton] at hc
      subst hc
      exact Bool.not_eq_true _ ▸ hb
  | h2 a d rest ih1 ih2 =>
    intro line hline c hc
    by_cases hrn : a = '\r' ∧ d = '\n'
    · simp only [pySplitlines] at hline
      rw [if_pos hrn] at hline
      rcases List.mem_cons.mp hline with rfl | hline'
      · simp at hc
      · exact ih2 line hline' c hc
    · by_cases hb : isLineBoundary a
      · simp only [pySplitlines] at hline
        rw [if_neg hrn, if_pos hb] at hline
        rcases List.mem_cons.mp hline with rfl | hline'
        · simp at hc
        · exact ih1 line hline' c hc
      · simp only [pySplitlines] at hline
        rw [if_neg hrn, if_neg hb] at hline
        cases hs : pySplitlines (d :: rest) with
        | nil =>
          rw [hs] at hline
          rw [List.mem_singleton] at hline
          subst hline
          rw [List.mem_singleton] at hc
          subst hc
          exact Bool.not_eq_true _ ▸ hb
        | cons q t =>
          rw [hs] at hline
          rcases List.mem_cons.mp hline with rfl | hline'
          · rcases List.mem_cons.mp hc with rfl | hc'
            · exact Bool.not_eq_true _ ▸ hb
            · exact ih1 q (hs ▸ List.mem_cons_self q t) c hc'
          · exact ih1 line (hs ▸ List.mem_cons_of_mem q hline') c hc

theorem pySplitlines_eq_self :
    ∀ f, f ≠ [] → (∀ c ∈ f, isLineBoundary c = false) →
      pySplitlines f = [f] := by
  intro f
  induction f using twoStepInduction with
  | h0 => intro h _; exact absurd rfl h
  | h1 c =>
    intro _ hb
    have := hb c (List.mem_singleton_self c)
    simp [pySplitlines, this]
  | h2 c d rest ih1 ih2 =>
    intro _ hb
    have hc : isLineBoundary c = false := hb c (List.mem_cons_self c _)
    have hrn : ¬ (c = '\r' ∧ d = '\n') := by
      rintro ⟨rfl, -⟩
      exact absurd hc (by decide)
    simp only [pySplitlines]
    rw [if_neg hrn, if_neg (by simp [hc]),
      ih1 (by simp) (fun e he => hb e (List.mem_cons_of_mem c he))]

theorem pySplitlines_newline (r : List Char) :
    pySplitlines ('\n' :: r) = [] :: pySplitlines r := by
  cases r with
  | nil => decide
  | cons d t =>
    simp only [pySplitlines]
    rw [if_neg (by rintro ⟨h, -⟩; exact absurd h (by decide)),
      if_pos (by decide)]

theorem pySplitlines_append :
    ∀ f r : List Char, (∀ c ∈ f, isLineBoundary c = false) →
      pySplitlines (f ++ '\n' :: r) = f :: pySplitlines r := by
  intro f
  induction f with
  | nil =>
    intro r _
    simpa using pySplitlines_newline r
  | cons a f ih =>
    intro r hf
    have ha : isLineBoundary a = false := hf a (List.mem_cons_self a f)
    have hf' : ∀ c ∈ f, isLineBoundary c = false := fun c hc =>
      hf c (List.mem_cons_of_mem a hc)
    cases hfr : f ++ '\n' :: r with
    | nil => exact absurd hfr (by simp)
    | cons d t =>
      rw [List.cons_append, hfr]
      simp only [pySplitlines]
      rw [if_neg (by rintro ⟨rfl, -⟩; exact absurd ha (by decide)),
        if_neg (by simp [ha]), ← hfr, ih r hf']

theorem pySplitlines_joinLines :
    ∀ fs : List (List Char),
      (∀ f ∈ fs, f ≠ [] ∧ ∀ c ∈ f, isLineBoundary c = false) →
      pySplitlines (joinLines fs) = fs := by
  intro fs
  induction fs using twoStepInduction with
  | h0 => intro _; rfl
  | h1 f =>
    intro h
    show pySplitlines f = [f]
    exact pySplitlines_eq_self f (h f (List.mem_singleton_self f)).1
      (h f (List.mem_singleton_self f)).2
  | h2 f g fs ih1 ih2 =>
    intro h
    show pySplitlines (f ++ '\n' :: joinLines (g :: fs)) = f :: g :: fs
    rw [pySplitlines_append f _ (h f (List.mem_cons_self f _)).2,
      ih1 (fun e he => h e (List.mem_cons_of_mem f he))]

theorem flatten_map_singleton {α : Type} :
    ∀ l : List α, (l.map (fun a => [a])).flatten = l := by
  intro l
  induction l with
  | nil => rfl
  | cons a l ih => simp [ih]

theorem cleanFragments_props :
    ∀ t f, f ∈ cleanFragments t →
      f ≠ [] ∧ pyStrip f = f ∧ (∀ c ∈ f, isLineBoundary c = false) ∧
        hasDoubleSpace f = false := by
  intro t f hf
  unfold cleanFragments at hf
  rw [List.mem_filter] at hf
  obtain ⟨hmem, hne⟩ := hf
  rw [List.mem_flatten] at hmem
  obtain ⟨lp, hlp, hflp⟩ := hmem
  rw [List.mem_map] at hlp
  obtain ⟨line', hline', rfl⟩ := hlp
  rw [List.mem_map] at hline'
  obtain ⟨line, hline, rfl⟩ := hline'
  rw [List.mem_map] at hflp
  obtain ⟨piece, hpiece, rfl⟩ := hflp
  refine ⟨by simpa [List.isEmpty_iff] using hne, pyStrip_idempotent piece,
    ?_, ?_⟩
  · intro c hc
    have hc1 : c ∈ piece := mem_of_mem_pyStrip hc
    have hc2 : c ∈ pyStrip line :=
      mem_of_mem_pySplitDoubleSpace (pyStrip line) piece hpiece c hc1
    have hc3 : c ∈ line := mem_of_mem_pyStrip hc2
    exact pySplitlines_no_boundary t line hline c hc3
  · exact hasDoubleSpace_pyStrip
      (pySplitDoubleSpace_no_ds (pyStrip line) piece hpiece)

theorem cleanFragments_join_of_props (F : List (List Char))
    (props : ∀ f ∈ F, f ≠ [] ∧ pyStrip f = f ∧
      (∀ c ∈ f, isLineBoundary c = false) ∧ hasDoubleSpace f = false) :
    cleanFragments (joinLines F) = F := by
  unfold cleanFragments
  rw [pySplitlines_joinLines F
    (fun f hf => ⟨(props f hf).1, (props f hf).2.2.1⟩)]
  have h1 : F.map pyStrip = F :=
    (List.map_congr_left (fun f hf => (props f hf).2.1)).trans
      (List.map_id F)
  rw [h1]
  have h2 : F.map (fun line => (pySplitDoubleSpace line).map pyStrip) =
      F.map (fun f => [f]) := by
    apply List.map_congr_left
    intro f hf
    rw [pySplitDoubleSpace_eq_self f (props f hf).2.2.2]
    simp [(props f hf).2.1]
  rw [h2, flatten_map_singleton]
  rw [List.filter_eq_self.mpr]
  intro f hf
  simpa [List.isEmpty_iff] using (props f hf).1

/-- C8: the whitespace-normalization pass of `fetch_and_clean_text` /
`fetch_and_clean_file` (split into lines, strip each line, split each line
on two-space runs, strip each fragment, drop empty fragments, rejoin with
single newlines) is idempotent: applying it to its own output returns that
output unchanged. -/
theorem cleanWhitespace_idempotent (t : List Char) :
    cleanWhitespace (cleanWhitespace t) = cleanWhitespace t := by
  show cleanWhitespace (joinLines (cleanFragments t)) = cleanWhitespace t
  unfold cleanWhitespace
  rw [cleanFragments_join_of_props (cleanFragments t) (cleanFragments_props t)]

/-! ## Lemmas for the chunker (C9) -/

theorem beginsWith_length :
    ∀ s l : List Char, beginsWith s l = true → s.length ≤ l.length := by
  intro s
  induction s with
  | nil => intro l _; simp
  | cons a s ih =>
    intro l h
    cases l with
    | nil => exact absurd h (by simp [beginsWith])
    | cons b l' =>
      rw [beginsWith, Bool.and_eq_true] at h
      simpa using Nat.succ_le_succ (ih l' h.2)

theorem beginsWith_append :
    ∀ s l : List Char, beginsWith s l = true →
      l = s ++ List.drop s.length l := by
  intro s
  induction s with
  | nil => intro l _; simp
  | cons a s ih =>
    intro l h
    cases l with
    | nil => exact absurd h (by simp [beginsWith])
    | cons b l' =>
      rw [beginsWith, Bool.and_eq_true, decide_eq_true_eq] at h
      obtain ⟨rfl, h2⟩ := h
      rw [List.cons_append, List.length_cons, List.drop_succ_cons]
      exact congrArg (a :: ·) (ih l' h2)

theorem splitOnSep_ne_nil (sep : List Char) : ∀ l, splitOnSep sep l ≠ [] := by
  intro l
  induction l using splitOnSep.induct sep with
  | case1 => simp [splitOnSep]
  | case2 c t h ih =>
    rw [splitOnSep, dif_pos h]
    simp
  | case3 c t h hm ih =>
    rw [splitOnSep, dif_neg h, hm]
    simp
  | case4 c t h q t1 hm ih =>
    rw [splitOnSep, dif_neg h, hm]
    simp

theorem splitOnSep_piece_length (sep : List Char) :
    ∀ l, ∀ p ∈ splitOnSep sep l, p.length ≤ l.length := by
  intro l
  induction l using splitOnSep.induct sep with
  | case1 =>
    intro p hp
    simp [splitOnSep] at hp
    subst hp
    simp
  | case2 c t h ih =>
    intro p hp
    rw [splitOnSep, dif_pos h] at hp
    rcases List.mem_cons.mp hp with rfl | hp'
    · simp
    · calc p.length ≤ (List.drop sep.length (c :: t)).length := ih p hp'
        _ ≤ (c :: t).length := by
            rw [List.length_drop]
            omega
  | case3 c t h hm ih =>
    intro p hp
    rw [splitOnSep, dif_neg h, hm] at hp
    rw [List.mem_singleton] at hp
    subst hp
    simp
  | case4 c t h q t1 hm ih =>
    intro p hp
    rw [splitOnSep, dif_neg h, hm] at hp
    rcases List.mem_cons.mp hp with rfl | hp'
    · have := ih q (hm ▸ List.mem_cons_self q t1)
      simpa using Nat.succ_le_succ this
    · have := ih p (hm ▸ List.mem_cons_of_mem q hp')
      exact Nat.le_succ_of_le this

theorem listWeight_cons (sl : Nat) (d : List Char) (ds : List (List Char)) :
    listWeight sl (d :: ds) =
      d.length + (if ds.isEmpty then 0 else sl + listWeight sl ds) := by
  cases ds with
  | nil => simp [listWeight]
  | cons e ds' =>
    show d.length + sl + listWeight sl (e :: ds') = _
    rw [if_neg (show ¬(((e :: ds') : List (List Char)).isEmpty = true) by simp)]
    omega

theorem listWeight_append_singleton (sl : Nat) :
    ∀ (l : List (List Char)) (d : List Char),
      listWeight sl (l ++ [d]) =
        listWeight sl l + d.length + (if l.isEmpty then 0 else sl) := by
  intro l
  induction l with
  | nil => intro d; simp [listWeight]
  | cons a l ih =>
    intro d
    cases l with
    | nil =>
      simp [listWeight]
      omega
    | cons b l' =>
      rw [List.cons_append, listWeight_cons,
        if_neg (show ¬((((b :: l') ++ [d]) : List (List Char)).isEmpty = true)
          by simp),
        ih d, listWeight_cons sl a (b :: l'),
        if_neg (show ¬(((b :: l') : List (List Char)).isEmpty = true) by simp),
        if_neg (show ¬(((b :: l') : List (List Char)).isEmpty = true) by simp),
        if_neg (show ¬(((a :: b :: l') : List (List Char)).isEmpty = true)
          by simp)]
      omega

theorem listWeight_le_append (sl : Nat) (l m : List (List Char)) :
    listWeight sl l ≤ listWeight sl (l ++ m) := by
  induction m using List.reverseRecOn with
  | nil => simp
  | append_singleton m d ih =>
    rw [← List.append_assoc, listWeight_append_singleton]
    omega

theorem listWeight_zero_map_singleton :
    ∀ t : List Char, listWeight 0 (t.map (fun c => [c])) = t.length := by
  intro t
  induction t with
  | nil => rfl
  | cons a t ih =>
    rw [List.map_cons, listWeight_cons, ih]
    cases t with
    | nil => simp
    | cons b t' =>
      simp
      omega

theorem listWeight_filter_nonempty_le (sl : Nat) :
    ∀ ps : List (List Char),
      listWeight sl (ps.filter (fun s => ¬ s.isEmpty)) ≤ listWeight sl ps := by
  intro ps
  induction ps with
  | nil => simp [listWeight]
  | cons p ps ih =>
    rw [List.filter_cons]
    by_cases hp : p.isEmpty
    · rw [if_neg (by simp [hp])]
      refine le_trans ih ?_
      rw [listWeight_cons]
      have hp' : p = [] := List.isEmpty_iff.mp hp
      subst hp'
      by_cases hps : ps.isEmpty
      · rw [List.isEmpty_iff] at hps
        subst hps
        simp [listWeight]
      · rw [if_neg (by simp [hps])]
        omega
    · rw [if_pos (by simp [hp])]
      rw [listWeight_cons, listWeight_cons]
      by_cases hf : (ps.filter (fun s => ¬ s.isEmpty)).isEmpty
      · rw [if_pos hf]
        by_cases hps : ps.isEmpty
        · rw [if_pos hps]
        · rw [if_neg hps]
          omega
      · have hps : ps.isEmpty = false := by
          cases ps with
          | nil => simp at hf
          | cons q qs => simp
        rw [if_neg hf, if_neg (by simp [hps])]
        omega

theorem splitOnSep_weight (sep : List Char) (hsep : sep ≠ []) :
    ∀ l, listWeight sep.length (splitOnSep sep l) ≤ l.length := by
  intro l
  induction l using splitOnSep.induct sep with
  | case1 => simp [splitOnSep, listWeight]
  | case2 c t h ih =>
    rw [splitOnSep, dif_pos h]
    have hne := splitOnSep_ne_nil sep (List.drop sep.length (c :: t))
    rw [listWeight_cons, if_neg (by simpa [List.isEmpty_iff] using hne)]
    have hbl := beginsWith_length sep (c :: t) h.2
    have hdl : (List.drop sep.length (c :: t)).length =
        (c :: t).length - sep.length := List.length_drop _ _
    simp only [List.length_nil]
    omega
  | case3 c t h hm ih =>
    rw [splitOnSep, dif_neg h, hm]
    simp [listWeight]
  | case4 c t h q t1 hm ih =>
    rw [splitOnSep, dif_neg h, hm]
    rw [hm] at ih
    rw [listWeight_cons] at ih ⊢
    simp only [List.length_cons]
    omega

theorem splitOnSep_char_cover (sep : List Char) :
    ∀ l, ∀ c ∈ l, c ∈ sep ∨ ∃ p ∈ splitOnSep sep l, c ∈ p := by
  intro l
  induction l using splitOnSep.induct sep with
  | case1 => intro c hc; simp at hc
  | case2 c' t h ih =>
    intro c hc
    have hdecomp := beginsWith_append sep (c' :: t) h.2
    rw [hdecomp, List.mem_append] at hc
    rcases hc with h1 | h1
    · exact Or.inl h1
    · rcases ih c h1 with h2 | ⟨p, hp, hcp⟩
      · exact Or.inl h2
      · refine Or.inr ⟨p, ?_, hcp⟩
        rw [splitOnSep, dif_pos h]
        exact List.mem_cons_of_mem [] hp
  | case3 c' t h hm ih =>
    intro c hc
    exact absurd hm (splitOnSep_ne_nil sep t)
  | case4 c' t h q t1 hm ih =>
    intro c hc
    rcases List.mem_cons.mp hc with rfl | hct
    · refine Or.inr ⟨c :: q, ?_, List.mem_cons_self c q⟩
      rw [splitOnSep, dif_neg h, hm]
      exact List.mem_cons_self _ _
    · rcases ih c hct with h2 | ⟨p, hp, hcp⟩
      · exact Or.inl h2
      · rw [hm] at hp
        rcases List.mem_cons.mp hp with rfl | hp'
        · refine Or.inr ⟨c' :: p, ?_, List.mem_cons_of_mem c' hcp⟩
          rw [splitOnSep, dif_neg h, hm]
          exact List.mem_cons_self _ _
        · refine Or.inr ⟨p, ?_, hcp⟩
          rw [splitOnSep, dif_neg h, hm]
          exact List.mem_cons_of_mem _ hp'

theorem splitTextWithSep_piece_length (t sep : List Char) :
    ∀ p ∈ splitTextWithSep t sep, p.length ≤ t.length := by
  intro p hp
  unfold splitTextWithSep at hp
  rw [List.mem_filter] at hp
  by_cases hsep : sep = []
  · rw [if_pos hsep] at hp
    obtain ⟨c, hc, rfl⟩ := List.mem_map.mp hp.1
    have : 1 ≤ t.length := by
      cases t with
      | nil => exact absurd hc (by simp)
      | cons a t' => simp
    simpa using this
  · rw [if_neg hsep] at hp
    exact splitOnSep_piece_length sep t p hp.1

theorem splitTextWithSep_weight (t sep : List Char) :
    listWeight sep.length (splitTextWithSep t sep) ≤ t.length := by
  unfold splitTextWithSep
  by_cases hsep : sep = []
  · rw [if_pos hsep]
    subst hsep
    rw [List.filter_eq_self.mpr]
    · rw [List.length_nil, listWeight_zero_map_singleton]
    · intro p hp
      obtain ⟨c, hc, rfl⟩ := List.mem_map.mp hp
      simp
  · rw [if_neg hsep]
    exact le_trans (listWeight_filter_nonempty_le _ _)
      (splitOnSep_weight sep hsep t)

theorem splitTextWithSep_char (t sep : List Char)
    (hsepws : ∀ c ∈ sep, isPySpace c = true) :
    ∀ c ∈ t, isPySpace c = false → ∃ p ∈ splitTextWithSep t sep, c ∈ p := by
  intro c hc hws
  unfold splitTextWithSep
  by_cases hsep : sep = []
  · rw [if_pos hsep]
    refine ⟨[c], List.mem_filter.mpr ⟨List.mem_map.mpr ⟨c, hc, rfl⟩, by simp⟩,
      List.mem_singleton_self c⟩
  · rw [if_neg hsep]
    rcases splitOnSep_char_cover sep t c hc with h1 | ⟨p, hp, hcp⟩
    · rw [hsepws c h1] at hws
      exact absurd hws (by simp)
    · refine ⟨p, List.mem_filter.mpr ⟨hp, ?_⟩, hcp⟩
      cases p with
      | nil => exact absurd hcp (by simp)
      | cons a p' => simp

theorem mergeSplitsGo_low (cs co : Nat) (sep : List Char) :
    ∀ (ds current docs : List (List Char)) (total : Nat),
      total = listWeight sep.length current →
      listWeight sep.length (current ++ ds) ≤ cs →
      mergeSplitsGo cs co sep ds docs current total =
        (docs, current ++ ds, listWeight sep.length (current ++ ds)) := by
  intro ds
  induction ds with
  | nil =>
    intro current docs total htot hle
    rw [mergeSplitsGo, List.append_nil, htot]
  | cons d ds ih =>
    intro current docs total htot hle
    have hstep : total + d.length +
        (if current.length > 0 then sep.length else 0) =
        listWeight sep.length (current ++ [d]) := by
      rw [listWeight_append_singleton, htot]
      by_cases hcur : current.isEmpty
      · rw [if_pos hcur, if_neg (by simp [List.isEmpty_iff.mp hcur])]
      · rw [if_neg hcur, if_pos (by
          cases current with
          | nil => simp at hcur
          | cons a l => simp)]
    have hbound : listWeight sep.length (current ++ [d]) ≤ cs := by
      refine le_trans ?_ hle
      have : current ++ d :: ds = (current ++ [d]) ++ ds := by simp
      rw [this]
      exact listWeight_le_append _ _ _
    rw [mergeSplitsGo]
    rw [if_neg (by rw [hstep]; omega)]
    rw [hstep]
    rw [ih (current ++ [d]) docs _ rfl
      (by rw [List.append_assoc]; simpa using hle)]
    rw [List.append_assoc]
    rfl

theorem mergeSplits_low (cs co : Nat) (sep : List Char)
    (splits : List (List Char))
    (hle : listWeight sep.length splits ≤ cs) :
    mergeSplits cs co splits sep =
      match joinDocs splits sep with
      | some t => [t]
      | none => [] := by
  unfold mergeSplits
  rw [mergeSplitsGo_low cs co sep splits [] [] 0 rfl (by simpa using hle)]
  cases joinDocs (([] : List (List Char)) ++ splits) sep <;> simp

theorem mem_joinWithSep (sep : List Char) :
    ∀ (docs : List (List Char)) (p : List Char) (c : Char),
      p ∈ docs → c ∈ p → c ∈ joinWithSep sep docs := by
  intro docs
  induction docs using twoStepInduction with
  | h0 => intro p c hp _; simp at hp
  | h1 d =>
    intro p c hp hc
    rw [List.mem_singleton] at hp
    subst hp
    exact hc
  | h2 d e ds ih1 ih2 =>
    intro p c hp hc
    show c ∈ d ++ sep ++ joinWithSep sep (e :: ds)
    rcases List.mem_cons.mp hp with rfl | hp'
    · simp [List.mem_append, hc]
    · simp only [List.mem_append]
      exact Or.inr (ih1 p c hp' hc)

theorem pyStrip_ne_nil_of_nonspace {l : List Char} {c : Char}
    (hc : c ∈ l) (hws : isPySpace c = false) : pyStrip l ≠ [] := by
  intro hnil
  have hdrop : c ∈ l.dropWhile isPySpace := by
    have hsplit := List.takeWhile_append_dropWhile (p := isPySpace) (l := l)
    rw [← hsplit, List.mem_append] at hc
    rcases hc with h1 | h1
    · have := List.mem_takeWhile_imp h1
      rw [this] at hws
      exact absurd hws (by simp)
    · exact h1
  unfold pyStrip dropEndWhile at hnil
  have h2 : (l.dropWhile isPySpace).reverse.dropWhile isPySpace = [] := by
    have := congrArg List.reverse hnil
    simpa using this
  rw [List.dropWhile_eq_nil_iff] at h2
  have hcrev : c ∈ (l.dropWhile isPySpace).reverse := by simpa using hdrop
  have := h2 c hcrev
  rw [this] at hws
  exact absurd hws (by simp)

theorem joinDocs_some (sep : List Char) (docs : List (List Char))
    (p : List Char) (c : Char) (hp : p ∈ docs) (hc : c ∈ p)
    (hws : isPySpace c = false) :
    joinDocs docs sep = some (pyStrip (joinWithSep sep docs)) := by
  unfold joinDocs
  rw [if_neg]
  simp only [List.isEmpty_iff]
  exact pyStrip_ne_nil_of_nonspace (mem_joinWithSep sep docs p c hp hc) hws

theorem splitTextGo_all_good (cs co : Nat) (sep : List Char)
    (newSeps : List (List Char)) (recurse : List Char → List (List Char)) :
    ∀ (splits gs fc : List (List Char)),
      (∀ s ∈ splits, s.length < cs) →
      splitTextGo cs co sep newSeps recurse splits fc gs =
        fc ++ (if (gs ++ splits).isEmpty then []
          else mergeSplits cs co (gs ++ splits) sep) := by
  intro splits
  induction splits with
  | nil =>
    intro gs fc _
    rw [splitTextGo, List.append_nil]
  | cons s ss ih =>
    intro gs fc hgood
    rw [splitTextGo, if_pos (hgood s (List.mem_cons_self s ss)),
      ih (gs ++ [s]) fc (fun x hx => hgood x (List.mem_cons_of_mem s hx)),
      List.append_assoc]
    rfl

theorem splitTextFuel_succ (cs co fuel : Nat) (seps : List (List Char))
    (text : List Char) :
    splitTextFuel cs co (fuel + 1) seps text =
      splitTextGo cs co (chooseSep text seps).1 (chooseSep text seps).2
        (splitTextFuel cs co fuel (chooseSep text seps).2)
        (splitTextWithSep text (chooseSep text seps).1) [] [] := rfl

theorem chooseSep_default_ws (t : List Char) :
    ∀ c ∈ (chooseSep t defaultSeparators).1, isPySpace c = true := by
  by_cases h1 : occursIn ['\n', '\n'] t <;>
    by_cases h2 : occursIn ['\n'] t <;>
      by_cases h3 : occursIn [' '] t <;>
        simp [chooseSep, defaultSeparators, chooseSepGo, h1, h2, h3] <;>
          decide

theorem splitTextGo_single (sep : List Char) (newSeps : List (List Char))
    (recurse : List Char → List (List Char)) (t : List Char) (c : Char)
    (hws : ∀ x ∈ sep, isPySpace x = true) (hlen : t.length < 1000)
    (hct : c ∈ t) (hcws : isPySpace c = false) :
    (splitTextGo 1000 200 sep newSeps recurse (splitTextWithSep t sep)
      [] []).length = 1 := by
  have hgood : ∀ s ∈ splitTextWithSep t sep, s.length < 1000 :=
    fun s hs => lt_of_le_of_lt (splitTextWithSep_piece_length t sep s hs) hlen
  rw [splitTextGo_all_good 1000 200 sep newSeps recurse
    (splitTextWithSep t sep) [] [] hgood]
  obtain ⟨p, hp, hcp⟩ := splitTextWithSep_char t sep hws c hct hcws
  have hne : ¬ ((([] : List (List Char)) ++ splitTextWithSep t sep).isEmpty
      = true) := by
    rw [List.nil_append]
    cases hs : splitTextWithSep t sep with
    | nil => rw [hs] at hp; exact absurd hp (by simp)
    | cons q qs => simp
  rw [if_neg hne, List.nil_append, List.nil_append,
    mergeSplits_low 1000 200 sep (splitTextWithSep t sep)
      (le_trans (splitTextWithSep_weight t sep) (Nat.le_of_lt hlen)),
    joinDocs_some sep (splitTextWithSep t sep) p c hp hcp hcws]
  simp

/-- C9 (counterexample): the single space is an input shorter than the
1000-character chunk size for which the chunker returns no chunk at all
rather than exactly one: the split on `" "` leaves only empty pieces,
which are dropped, so `chunk_text " " = []`. -/
theorem chunk_text_whitespace_counterexample :
    ([' '] : List Char).length < 1000 ∧ chunk_text [' '] = [] ∧
      (chunk_text [' ']).length ≠ 1 := by
  have hcs : chooseSep [' '] defaultSeparators = ([' '], [[]]) := by
    have h1 : occursIn ['\n', '\n'] [' '] = false := by decide
    have h2 : occursIn ['\n'] [' '] = false := by decide
    have h3 : occursIn [' '] [' '] = true := by decide
    simp [chooseSep, defaultSeparators, chooseSepGo, h1, h2, h3]
  have hsos : splitOnSep [' '] [' '] = [[], []] := by
    rw [splitOnSep, dif_pos ⟨by decide, by decide⟩]
    rw [show List.drop ([' '] : List Char).length [' '] = [] from rfl]
    rw [splitOnSep]
  have hsts : splitTextWithSep [' '] [' '] = [] := by
    unfold splitTextWithSep
    rw [if_neg (by decide), hsos]
    rfl
  have hmain : chunk_text [' '] = [] := by
    rw [show chunk_text [' '] =
      splitTextFuel 1000 200 (4 + 1) defaultSeparators [' '] from rfl,
      splitTextFuel_succ, hcs]
    show splitTextGo 1000 200 [' '] [[]] _ (splitTextWithSep [' '] [' ']) [] [] = []
    rw [hsts, splitTextGo]
    rfl
  exact ⟨by decide, hmain, by rw [hmain]; decide⟩

/-- C9 (amended): for every input shorter than the 1000-character chunk
size that contains at least one non-whitespace character, the chunker
returns exactly one chunk; the empty input (like any whitespace-only
input, see the counterexample) yields the empty sequence without error. -/
theorem chunk_text_short_input_amended :
    (∀ t : List Char, t.length < 1000 → (∃ c ∈ t, isPySpace c = false) →
      (chunk_text t).length = 1) ∧
    chunk_text [] = [] := by
  refine ⟨?_, rfl⟩
  rintro t hlen ⟨c, hct, hcws⟩
  rw [show chunk_text t = splitTextFuel 1000 200 (4 + 1) defaultSeparators t
    from rfl, splitTextFuel_succ]
  exact splitTextGo_single _ _ _ t c (chooseSep_default_ws t) hlen hct hcws

/-- Witness for C9's amended statement at the concrete input `"hi"`. -/
theorem chunk_text_short_input_amended_witness :
    (['h', 'i'] : List Char).length < 1000 ∧ isPySpace 'h' = false ∧
      (chunk_text ['h', 'i']).length = 1 :=
  ⟨by decide, by decide,
    chunk_text_short_input_amended.1 ['h', 'i'] (by decide)
      ⟨'h', by decide, by decide⟩⟩

end RagSpec
